import Mathlib

/-!
Shallow embedding of the invenio-qa-tools core
(src/invenio_qa_tools/api.py) and verification of its specification.

The two core functions are:

* build_package_requirements — the Requirement Extractor: turns one
  package's PEP426-style metadata into a per-package requirement list;
* build_requirements_list — the Requirement Aggregator: pivots a list of
  per-package requirement maps into a per-dependency map with a
  version_specifiers bookkeeping list used for conflict flagging.

Python dictionaries are embedded as insertion-ordered association lists
with unique keys (lookupA / setA / popitemD mirror membership test,
item assignment and dict.popitem).  Python sets of strings are embedded
as duplicate-free lists in insertion order (setInsert / setUnionL).
Exceptions are embedded with Except.
-/

namespace InvenioQaTools

/-! ## Association lists: the embedding of Python dict -/

/-- Lookup of a key in an insertion-ordered association list
(the embedding of Python dict membership / item access). -/
def lookupA {α : Type} : List (String × α) → String → Option α
  | [], _ => none
  | (k, v) :: rest, key => if k = key then some v else lookupA rest key

/-- Item assignment on an association list: update the value in place if
the key is present, otherwise append the new pair at the end
(the embedding of Python dict item assignment). -/
def setA {α : Type} : List (String × α) → String → α → List (String × α)
  | [], key, v => [(key, v)]
  | (k, w) :: rest, key, v =>
    if k = key then (key, v) :: rest else (k, w) :: setA rest key v

/-- The embedding of Python dict.popitem: remove and return the last
inserted item; None on an empty dict (Python raises KeyError there). -/
def popitemD {α : Type} (d : List (String × α)) : Option ((String × α) × List (String × α)) :=
  match d.getLast? with
  | none => none
  | some kv => some (kv, d.dropLast)

/-! ## Python set of strings as a duplicate-free insertion-ordered list -/

/-- Adding one element to a Python set: kept only if not already present. -/
def setInsert (s : List String) (x : String) : List String :=
  if s.contains x then s else s ++ [x]

/-- Python set.union with an iterable of strings. -/
def setUnionL (s : List String) (t : List String) : List String :=
  t.foldl setInsert s

/-! ## canonicalize_name (packaging.utils)

The source canonicalizes dependency names with
re.sub of one or more of the characters dash, underscore, dot
by a single dash, followed by str.lower. -/

/-- Is the character one of the three separator characters collapsed by
package-name canonicalization? -/
def isSepChar (c : Char) : Bool := c == '-' || c == '_' || c == '.'

/-- One pass over the characters of a name: every maximal run of
separator characters becomes a single dash and every other character is
lowercased.  The flag records whether the previous character was part of
a separator run. -/
def canonAux : Bool → List Char → List Char
  | _, [] => []
  | lastSep, c :: cs =>
    if isSepChar c then
      if lastSep then canonAux true cs else '-' :: canonAux true cs
    else c.toLower :: canonAux false cs

/-- The embedding of packaging.utils.canonicalize_name: collapse each
run of dash/underscore/dot to a single dash and lowercase the rest. -/
def canonicalize_name (s : String) : String := String.mk (canonAux false s.data)

/-! ## The Requirement Extractor: build_package_requirements -/

/-- One element of a requirement-group list in PEP426 metadata: an
optional extra tag and an optional list of requirement strings
(both keys are read with dict.get in the source, hence optional). -/
structure ReqGroup where
  extra : Option String := none
  reqs : Option (List String) := none
deriving DecidableEq, Repr

/-- A parsed PEP426 metadata document: a name and the five
requirement-group keys read by the source (a key absent from the
document is the empty list, matching metadata.get(key, [])). -/
structure PackageMetadata where
  name : String
  run_requires : List ReqGroup := []
  test_requires : List ReqGroup := []
  meta_requires : List ReqGroup := []
  build_requires : List ReqGroup := []
  dev_requires : List ReqGroup := []
deriving DecidableEq, Repr

/-- The keyword options of build_package_requirements, all true by
default, one per requirement-group key. -/
structure ExtractOpts where
  run_requires : Bool := true
  test_requires : Bool := true
  meta_requires : Bool := true
  build_requires : Bool := true
  dev_requires : Bool := true
deriving DecidableEq, Repr

/-- The failures of the extractor that the claims exercise:
typeError is the TypeError Python raises when set.union receives None
(the helper fell through without returning a set), and
malformedRequirement is the ValueError raised when a requirement string
does not unpack into exactly two whitespace-separated tokens. -/
inductive ExtractError
  | typeError
  | malformedRequirement
deriving DecidableEq, Repr

/-- The embedding of the nested helper of build_package_requirements:
with more than one sub-group, return the requires list of the first
sub-group whose extra tag is "all" (None when that key is absent), and
fall through — returning None — when no sub-group is tagged "all";
with exactly one sub-group, return its requires list (None when absent);
with no sub-groups, return the empty set. -/
def get_requirements (groups : List ReqGroup) : Option (List String) :=
  if groups.length > 1 then
    match groups.find? (fun g => g.extra == some "all") with
    | some g => g.reqs
    | none => none
  else
    match groups with
    | [] => some []
    | g :: _ => g.reqs

/-- One enabled-key step of building the requirements set:
requirements_list.union of the helper's result, a TypeError when that
result is None. -/
def unionKey (acc : Except ExtractError (List String)) (enabled : Bool)
    (groups : List ReqGroup) : Except ExtractError (List String) :=
  match acc with
  | .error e => .error e
  | .ok s =>
    if enabled then
      match get_requirements groups with
      | none => .error .typeError
      | some reqs => .ok (setUnionL s reqs)
    else .ok s

/-- The requirement strings selected by build_package_requirements: the
union over the five enabled requirement-group keys, in source order. -/
def requirementStrings (md : PackageMetadata) (opts : ExtractOpts) :
    Except ExtractError (List String) :=
  unionKey
    (unionKey
      (unionKey
        (unionKey
          (unionKey (.ok []) opts.run_requires md.run_requires)
          opts.test_requires md.test_requires)
        opts.meta_requires md.meta_requires)
      opts.build_requires md.build_requires)
    opts.dev_requires md.dev_requires

/-- Tokenizer underlying the embedding of Python str.split with no
argument: cur carries the characters of the token currently being read,
a whitespace character finishes the current token, and nothing is
emitted for a run of whitespace. -/
def pySplitAux : List Char → List Char → List String
  | [], cur => if cur = [] then [] else [String.mk cur]
  | c :: cs, cur =>
    if c.isWhitespace then
      if cur = [] then pySplitAux cs []
      else String.mk cur :: pySplitAux cs []
    else pySplitAux cs (cur ++ [c])

/-- The embedding of Python str.split with no argument: split on runs of
whitespace, discarding empty tokens. -/
def pySplit (s : String) : List String := pySplitAux s.data []

/-- Split one requirement string into exactly two whitespace-separated
tokens and canonicalize the dependency name; the ValueError of a failed
two-name unpacking is the malformedRequirement failure. -/
def parseRequirement (s : String) : Except ExtractError (String × String) :=
  match pySplit s with
  | [dep, ver] => .ok (canonicalize_name dep, ver)
  | _ => .error .malformedRequirement

/-- The conversion loop of build_package_requirements over the selected
requirement strings: each string becomes one single-key mapping,
embedded as a name/specifier pair. -/
def parseRequirements : List String → Except ExtractError (List (String × String))
  | [] => .ok []
  | s :: rest =>
    match parseRequirement s with
    | .error e => .error e
    | .ok r =>
      match parseRequirements rest with
      | .error e => .error e
      | .ok rs => .ok (r :: rs)

/-- The embedding of build_package_requirements (the Requirement
Extractor): the union of the enabled requirement groups, each string
split into a canonicalized dependency name and a version specifier,
keyed by the package name from the metadata. -/
def build_package_requirements (md : PackageMetadata) (opts : ExtractOpts := {}) :
    Except ExtractError (String × List (String × String)) :=
  match requirementStrings md opts with
  | .error e => .error e
  | .ok strs =>
    match parseRequirements strs with
    | .error e => .error e
    | .ok reqs => .ok (md.name, reqs)

/-! ## The Requirement Aggregator: build_requirements_list -/

/-- A per-dependency entry of the aggregated result: an
insertion-ordered mapping from package name — and from the bookkeeping
key "version_specifiers" — to a list of version specifiers. -/
abbrev Entry := List (String × List String)

/-- The aggregated result: dependency name to entry, insertion-ordered. -/
abbrev Reqs := List (String × Entry)

/-- The requirement list of one package: ordered single-key mappings,
each a dependency name with one version specifier. -/
abbrev DepList := List (String × String)

/-- One element of the aggregator's input list: a Python dict mapping a
package name to its requirement list (single-key when produced by the
extractor, but the aggregator accepts any dict). -/
abbrev PackageDict := List (String × DepList)

/-- The failures of the aggregator: conflict is the ValueError raised
under raise_on_confict, keyError the dict.popitem failure on an empty
dict. -/
inductive AggError
  | conflict
  | keyError
deriving DecidableEq, Repr

/-- The two version_specifiers statements at the end of the
aggregator's inner loop: create the bookkeeping list with the current
specifier when the key is absent, then append the current specifier
when it is not yet in the list. -/
def addVS (entry : Entry) (ver : String) : Entry :=
  let e1 :=
    match lookupA entry "version_specifiers" with
    | none => setA entry "version_specifiers" [ver]
    | some _ => entry
  match lookupA e1 "version_specifiers" with
  | none => e1
  | some vl => if vl.contains ver then e1 else setA e1 "version_specifiers" (vl ++ [ver])

/-- The body of the aggregator's inner loop for one
(dependency, specifier) pair of the package named pname: create the
dependency entry on first sight, create the per-package list when the
package key is absent, append otherwise — or raise when
raise_on_confict is set — then update the version_specifiers list. -/
def processDep (raiseC : Bool) (pname : String) (acc : Reqs) (dv : String × String) :
    Except AggError Reqs :=
  match lookupA acc dv.1 with
  | none => .ok (setA acc dv.1 (addVS [(pname, [dv.2])] dv.2))
  | some entry =>
    match lookupA entry pname with
    | none => .ok (setA acc dv.1 (addVS (setA entry pname [dv.2]) dv.2))
    | some vlist =>
      if raiseC then .error .conflict
      else .ok (setA acc dv.1 (addVS (setA entry pname (vlist ++ [dv.2])) dv.2))

/-- The aggregator's inner loop over one package's requirement list. -/
def aggDeps (raiseC : Bool) (pname : String) : Reqs → DepList → Except AggError Reqs
  | acc, [] => .ok acc
  | acc, dv :: rest =>
    match processDep raiseC pname acc dv with
    | .error e => .error e
    | .ok acc2 => aggDeps raiseC pname acc2 rest

/-- The aggregator's outer loop: pop the single item of each package
dict — a mutation of the caller's dicts — and fold its requirement list
into the accumulator.  The residual state of the already-processed input
dicts is threaded through so that the mutation performed by
dict.popitem stays observable. -/
def aggPackages (raiseC : Bool) :
    Reqs → List PackageDict → List PackageDict → Except AggError (Reqs × List PackageDict)
  | acc, done, [] => .ok (acc, done)
  | acc, done, pkg :: rest =>
    match popitemD pkg with
    | none => .error .keyError
    | some ((pname, deplist), pkgRest) =>
      match aggDeps raiseC pname acc deplist with
      | .error e => .error e
      | .ok acc2 => aggPackages raiseC acc2 (done ++ [pkgRest]) rest

/-- The embedding of build_requirements_list (the Requirement
Aggregator).  The result pairs the aggregated mapping with the final
state of the input dicts, each of which had one item removed by
dict.popitem. -/
def build_requirements_list (package_list : List PackageDict)
    (raise_on_confict : Bool := false) : Except AggError (Reqs × List PackageDict) :=
  aggPackages raise_on_confict [] [] package_list

/-! ## Specification-side observations used to state the claims -/

/-- The (package, dependency, specifier) triples the aggregator
processes, in processing order: for each input dict, the popped (last)
item contributes one triple per requirement. -/
def flatTriples : List PackageDict → List (String × String × String)
  | [] => []
  | pkg :: rest =>
    (match popitemD pkg with
     | none => []
     | some ((pname, dl), _) => dl.map (fun p => (pname, p.1, p.2))) ++ flatTriples rest

/-- Every specifier recorded for a dependency, across all packages, in
processing order (duplicates included). -/
def allVers (ts : List (String × String × String)) (d : String) : List String :=
  ts.filterMap (fun t => if t.2.1 = d then some t.2.2 else none)

/-- Every specifier recorded for one (package, dependency) pair, in
processing order (duplicates included). -/
def pairVers (ts : List (String × String × String)) (p d : String) : List String :=
  ts.filterMap (fun t => if t.1 = p ∧ t.2.1 = d then some t.2.2 else none)

/-- First-seen-order deduplication of a list of strings. -/
def dedupL (l : List String) : List String := l.foldl setInsert []

/-- The version_specifiers list of a dependency in the aggregated
result (empty when the dependency or the key is absent); its length
being greater than one is the conflict flag of the presentation layer. -/
def vsList (r : Reqs) (d : String) : List String :=
  match lookupA r d with
  | none => []
  | some entry => (lookupA entry "version_specifiers").getD []

/-- The per-package specifier list recorded for a dependency in the
aggregated result. -/
def pkgList (r : Reqs) (d p : String) : Option (List String) :=
  match lookupA r d with
  | none => none
  | some entry => lookupA entry p

/-- The (package, dependency) name pairs of a triple list. -/
def pairsOf (ts : List (String × String × String)) : List (String × String) :=
  ts.map (fun t => (t.1, t.2.1))

/-- Full characterization of one dependency entry of the accumulator
after the triples ts have been processed, valid when no package is
named "version_specifiers": the bookkeeping key holds the global
first-seen deduplication of all specifiers of the dependency, and each
package key holds exactly the specifiers that package recorded for the
dependency, duplicates included, in order. -/
def EntryInv (ts : List (String × String × String)) (d : String) (E : Entry) : Prop :=
  lookupA E "version_specifiers" = some (dedupL (allVers ts d)) ∧
  ∀ p, p ≠ "version_specifiers" →
    lookupA E p = if pairVers ts p d = [] then none else some (pairVers ts p d)

/-- Full characterization of the accumulator after the triples ts have
been processed, valid when no package is named "version_specifiers". -/
def ReqsInv (ts : List (String × String × String)) (r : Reqs) : Prop :=
  ∀ d, (lookupA r d = none → allVers ts d = []) ∧
    (∀ E, lookupA r d = some E → allVers ts d ≠ [] ∧ EntryInv ts d E)

/-- Membership characterization of the version_specifiers lists of the
accumulator, valid for arbitrary package names: a dependency has an
entry exactly when it was mentioned, and its version_specifiers list
holds exactly the specifiers recorded for it, as a set. -/
def MemInv (ts : List (String × String × String)) (r : Reqs) : Prop :=
  ∀ d, (lookupA r d = none → allVers ts d = []) ∧
    (∀ E, lookupA r d = some E →
      ∃ L, lookupA E "version_specifiers" = some L ∧ ∀ v, v ∈ L ↔ v ∈ allVers ts d)

/-- Two characters are spelling variants when they agree up to letter
case, or both are separator characters (dash, underscore, dot). -/
def charVariant (a b : Char) : Bool :=
  (a.toLower == b.toLower) || (isSepChar a && isSepChar b)

/-- Two names are spelling variants when they have the same length and
agree position by position up to letter case and separator style. -/
def nameVariant (s t : String) : Bool :=
  (s.data.length == t.data.length) &&
    (s.data.zip t.data).all (fun q => charVariant q.1 q.2)

/-! ## Lemmas on the dict embedding -/

theorem lookupA_setA_self {α : Type} (m : List (String × α)) (k : String) (v : α) :
    lookupA (setA m k v) k = some v := by
  induction m with
  | nil => simp [setA, lookupA]
  | cons kv rest ih =>
    obtain ⟨k0, v0⟩ := kv
    by_cases h : k0 = k
    · simp [setA, h, lookupA]
    · simp only [setA, if_neg h, lookupA]
      exact ih

theorem lookupA_setA_ne {α : Type} (m : List (String × α)) (k k' : String) (v : α)
    (h : k ≠ k') : lookupA (setA m k v) k' = lookupA m k' := by
  induction m with
  | nil => simp [setA, lookupA, h]
  | cons kv rest ih =>
    obtain ⟨k0, v0⟩ := kv
    by_cases hk : k0 = k
    · subst hk
      simp only [setA, if_pos rfl, lookupA]
      rw [if_neg h, if_neg h]
    · simp only [setA, if_neg hk, lookupA]
      by_cases hk' : k0 = k'
      · rw [if_pos hk', if_pos hk']
      · rw [if_neg hk', if_neg hk']
        exact ih

/-! ## Lemmas on the set embedding -/

theorem contains_iff (s : List String) (x : String) : s.contains x = true ↔ x ∈ s :=
  List.elem_iff

theorem mem_setInsert (s : List String) (x y : String) :
    y ∈ setInsert s x ↔ y ∈ s ∨ y = x := by
  unfold setInsert
  by_cases h : s.contains x
  · simp only [if_pos h]
    constructor
    · exact Or.inl
    · rintro (hy | rfl)
      · exact hy
      · exact (contains_iff s y).mp h
  · have hm : x ∉ s := fun hx => h ((contains_iff s x).mpr hx)
    rw [if_neg h]
    simp

theorem nodup_setInsert (s : List String) (x : String) (h : s.Nodup) :
    (setInsert s x).Nodup := by
  unfold setInsert
  by_cases hc : s.contains x
  · rw [if_pos hc]; exact h
  · rw [if_neg hc]
    refine List.Nodup.append h (List.nodup_singleton x) ?_
    intro a ha hb
    rcases List.mem_singleton.mp hb with rfl
    exact hc ((contains_iff s a).mpr ha)

theorem mem_foldl_setInsert (l : List String) (acc : List String) (x : String) :
    x ∈ l.foldl setInsert acc ↔ x ∈ acc ∨ x ∈ l := by
  induction l generalizing acc with
  | nil => simp
  | cons a rest ih =>
    simp only [List.foldl_cons, ih, mem_setInsert, List.mem_cons]
    tauto

theorem mem_dedupL (l : List String) (x : String) : x ∈ dedupL l ↔ x ∈ l := by
  unfold dedupL
  rw [mem_foldl_setInsert]
  simp

theorem nodup_foldl_setInsert (l : List String) (acc : List String) (h : acc.Nodup) :
    (l.foldl setInsert acc).Nodup := by
  induction l generalizing acc with
  | nil => exact h
  | cons a rest ih => exact ih _ (nodup_setInsert _ _ h)

theorem nodup_dedupL (l : List String) : (dedupL l).Nodup :=
  nodup_foldl_setInsert l [] List.nodup_nil

theorem dedupL_append_singleton (l : List String) (v : String) :
    dedupL (l ++ [v]) = setInsert (dedupL l) v := by
  unfold dedupL
  rw [List.foldl_append]
  rfl

/-! ## Lemmas on the triple observations -/

theorem allVers_append (ts : List (String × String × String))
    (t : String × String × String) (d : String) :
    allVers (ts ++ [t]) d = allVers ts d ++ (if t.2.1 = d then [t.2.2] else []) := by
  unfold allVers
  rw [List.filterMap_append]
  by_cases h : t.2.1 = d
  · simp [h]
  · simp [h]

theorem pairVers_append (ts : List (String × String × String))
    (t : String × String × String) (p d : String) :
    pairVers (ts ++ [t]) p d =
      pairVers ts p d ++ (if t.1 = p ∧ t.2.1 = d then [t.2.2] else []) := by
  unfold pairVers
  rw [List.filterMap_append]
  by_cases h : t.1 = p ∧ t.2.1 = d
  · simp [h]
  · simp [h]

theorem allVers_snoc (ts : List (String × String × String)) (pname d v d' : String) :
    allVers (ts ++ [(pname, d, v)]) d' =
      allVers ts d' ++ (if d = d' then [v] else []) := by
  rw [allVers_append]

theorem pairVers_snoc (ts : List (String × String × String)) (pname d v p d' : String) :
    pairVers (ts ++ [(pname, d, v)]) p d' =
      pairVers ts p d' ++ (if pname = p ∧ d = d' then [v] else []) := by
  rw [pairVers_append]

theorem mem_pairVers (ts : List (String × String × String)) (p d v : String) :
    v ∈ pairVers ts p d ↔ (p, d, v) ∈ ts := by
  unfold pairVers
  rw [List.mem_filterMap]
  constructor
  · rintro ⟨t, ht, hf⟩
    by_cases h : t.1 = p ∧ t.2.1 = d
    · rw [if_pos h] at hf
      obtain ⟨h1, h2⟩ := h
      rcases Option.some_injective _ hf with rfl
      have : t = (p, d, t.2.2) := by
        obtain ⟨a, b, c⟩ := t
        simp_all
      rw [← this]; exact ht
    · rw [if_neg h] at hf
      exact absurd hf (by simp)
  · intro ht
    exact ⟨(p, d, v), ht, by simp⟩

theorem mem_allVers (ts : List (String × String × String)) (d v : String) :
    v ∈ allVers ts d ↔ ∃ p, (p, d, v) ∈ ts := by
  unfold allVers
  rw [List.mem_filterMap]
  constructor
  · rintro ⟨t, ht, hf⟩
    by_cases h : t.2.1 = d
    · rw [if_pos h] at hf
      rcases Option.some_injective _ hf with rfl
      refine ⟨t.1, ?_⟩
      have : t = (t.1, d, t.2.2) := by
        obtain ⟨a, b, c⟩ := t
        simp_all
      rw [← this]; exact ht
    · rw [if_neg h] at hf
      exact absurd hf (by simp)
  · rintro ⟨p, hp⟩
    exact ⟨(p, d, v), hp, by simp⟩

theorem pairVers_nil_of_allVers_nil (ts : List (String × String × String))
    (p d : String) (h : allVers ts d = []) : pairVers ts p d = [] := by
  rw [List.eq_nil_iff_forall_not_mem] at h ⊢
  intro v hv
  exact h v ((mem_allVers ts d v).mpr ⟨p, (mem_pairVers ts p d v).mp hv⟩)

/-! ## Lemmas on addVS -/

theorem addVS_of_vs_none (E : Entry) (v : String)
    (h : lookupA E "version_specifiers" = none) :
    addVS E v = setA E "version_specifiers" [v] := by
  unfold addVS
  rw [h]
  simp only []
  rw [lookupA_setA_self]
  simp [List.contains]

theorem addVS_of_vs_some (E : Entry) (v : String) (L : List String)
    (h : lookupA E "version_specifiers" = some L) :
    addVS E v = if L.contains v then E else setA E "version_specifiers" (L ++ [v]) := by
  unfold addVS
  rw [h]
  simp only []
  rw [h]

theorem lookupA_addVS_vs_none (E : Entry) (v : String)
    (h : lookupA E "version_specifiers" = none) :
    lookupA (addVS E v) "version_specifiers" = some [v] := by
  rw [addVS_of_vs_none E v h, lookupA_setA_self]

theorem lookupA_addVS_vs_some (E : Entry) (v : String) (L : List String)
    (h : lookupA E "version_specifiers" = some L) :
    lookupA (addVS E v) "version_specifiers" = some (setInsert L v) := by
  rw [addVS_of_vs_some E v L h]
  unfold setInsert
  by_cases hc : L.contains v
  · rw [if_pos hc, if_pos hc, h]
  · rw [if_neg hc, if_neg hc, lookupA_setA_self]

theorem lookupA_addVS_ne (E : Entry) (v : String) (p : String)
    (hp : p ≠ "version_specifiers") : lookupA (addVS E v) p = lookupA E p := by
  cases h : lookupA E "version_specifiers" with
  | none =>
    rw [addVS_of_vs_none E v h, lookupA_setA_ne _ _ _ _ (fun he => hp he.symm)]
  | some L =>
    rw [addVS_of_vs_some E v L h]
    by_cases hc : L.contains v
    · rw [if_pos hc]
    · rw [if_neg hc, lookupA_setA_ne _ _ _ _ (fun he => hp he.symm)]

/-! ## Branch equations of processDep -/

theorem processDep_none (raiseC : Bool) (pname : String) (R : Reqs) (d v : String)
    (h : lookupA R d = none) :
    processDep raiseC pname R (d, v) = .ok (setA R d (addVS [(pname, [v])] v)) := by
  unfold processDep
  simp only [h]

theorem processDep_newpkg (raiseC : Bool) (pname : String) (R : Reqs) (d v : String)
    (E : Entry) (hR : lookupA R d = some E) (hE : lookupA E pname = none) :
    processDep raiseC pname R (d, v) = .ok (setA R d (addVS (setA E pname [v]) v)) := by
  unfold processDep
  simp only [hR, hE]

theorem processDep_oldpkg_false (pname : String) (R : Reqs) (d v : String)
    (E : Entry) (w : List String) (hR : lookupA R d = some E)
    (hE : lookupA E pname = some w) :
    processDep false pname R (d, v) =
      .ok (setA R d (addVS (setA E pname (w ++ [v])) v)) := by
  unfold processDep
  simp only [hR, hE, Bool.false_eq_true, if_false]

theorem processDep_oldpkg_true (pname : String) (R : Reqs) (d v : String)
    (E : Entry) (w : List String) (hR : lookupA R d = some E)
    (hE : lookupA E pname = some w) :
    processDep true pname R (d, v) = .error .conflict := by
  unfold processDep
  simp only [hR, hE, if_true]

/-! ## The invariant step lemmas -/

theorem EntryInv_congr {ts1 ts2 : List (String × String × String)} {d : String} {E : Entry}
    (h1 : allVers ts1 d = allVers ts2 d)
    (h2 : ∀ p, pairVers ts1 p d = pairVers ts2 p d)
    (h : EntryInv ts1 d E) : EntryInv ts2 d E := by
  obtain ⟨hvs, hpk⟩ := h
  constructor
  · rw [← h1]; exact hvs
  · intro p hp
    rw [← h2 p]
    exact hpk p hp

theorem EntryInv_fresh (ts : List (String × String × String)) (d pname v : String)
    (hp : pname ≠ "version_specifiers") (hA : allVers ts d = []) :
    EntryInv (ts ++ [(pname, d, v)]) d (addVS [(pname, [v])] v) := by
  have hvp : "version_specifiers" ≠ pname := Ne.symm hp
  have hEntry : addVS [(pname, [v])] v = [(pname, [v]), ("version_specifiers", [v])] := by
    rw [addVS_of_vs_none]
    · simp [setA, hp]
    · simp [lookupA, hp]
  rw [hEntry]
  constructor
  · rw [allVers_append ts (pname, d, v) d, if_pos rfl, hA]
    simp [lookupA, hp, dedupL, setInsert, List.contains]
  · intro p hpv
    have hvpp : "version_specifiers" ≠ p := Ne.symm hpv
    have hPnil : pairVers ts p d = [] := pairVers_nil_of_allVers_nil ts p d hA
    rw [pairVers_snoc ts pname d v p d, hPnil]
    by_cases hpn : pname = p
    · subst hpn
      have hcond : pname = pname ∧ d = d := ⟨rfl, rfl⟩
      rw [if_pos hcond]
      simp [lookupA]
    · have hcond : ¬(pname = p ∧ d = d) := fun hc => hpn hc.1
      rw [if_neg hcond]
      simp [lookupA, hpn, hvpp]

theorem EntryInv_update (ts : List (String × String × String)) (d pname v : String)
    (hp : pname ≠ "version_specifiers") (E : Entry) (hEInv : EntryInv ts d E)
    (m : List String) (hm : m = pairVers ts pname d ++ [v]) :
    EntryInv (ts ++ [(pname, d, v)]) d (addVS (setA E pname m) v) := by
  obtain ⟨hEvs, hEpk⟩ := hEInv
  have hvp : "version_specifiers" ≠ pname := Ne.symm hp
  have hE1vs : lookupA (setA E pname m) "version_specifiers" =
      some (dedupL (allVers ts d)) := by
    rw [lookupA_setA_ne _ _ _ _ hp]
    exact hEvs
  constructor
  · rw [lookupA_addVS_vs_some _ v _ hE1vs]
    rw [allVers_snoc ts pname d v d, if_pos rfl]
    rw [dedupL_append_singleton]
  · intro p hpv
    rw [lookupA_addVS_ne _ _ _ hpv]
    by_cases hpn : pname = p
    · subst hpn
      rw [lookupA_setA_self]
      have hcond : pname = pname ∧ d = d := ⟨rfl, rfl⟩
      have hmne : ¬(m = []) := by rw [hm]; simp
      rw [pairVers_snoc ts pname d v pname d, if_pos hcond, ← hm, if_neg hmne]
    · rw [lookupA_setA_ne _ _ _ _ hpn]
      have hcond : ¬(pname = p ∧ d = d) := fun hc => hpn hc.1
      rw [pairVers_snoc ts pname d v p d, if_neg hcond, List.append_nil]
      exact hEpk p hpv

theorem ReqsInv_setA_entry (ts : List (String × String × String)) (R : Reqs)
    (pname d v : String) (E2 : Entry) (hInv : ReqsInv ts R)
    (hE2 : EntryInv (ts ++ [(pname, d, v)]) d E2) :
    ReqsInv (ts ++ [(pname, d, v)]) (setA R d E2) := by
  have hAppAll : ∀ d', allVers (ts ++ [(pname, d, v)]) d' =
      allVers ts d' ++ (if d = d' then [v] else []) := fun d' =>
    allVers_snoc ts pname d v d'
  have hAppPair : ∀ p d', pairVers (ts ++ [(pname, d, v)]) p d' =
      pairVers ts p d' ++ (if pname = p ∧ d = d' then [v] else []) := fun p d' =>
    pairVers_snoc ts pname d v p d'
  have hOther : ∀ d' E, d ≠ d' → EntryInv ts d' E →
      EntryInv (ts ++ [(pname, d, v)]) d' E := by
    intro d' E hne hE
    refine EntryInv_congr ?_ ?_ hE
    · rw [hAppAll d', if_neg hne, List.append_nil]
    · intro p
      have hcond : ¬(pname = p ∧ d = d') := fun hc => hne hc.2
      rw [hAppPair p d', if_neg hcond, List.append_nil]
  intro d'
  by_cases hd : d' = d
  · subst hd
    constructor
    · intro hcon
      rw [lookupA_setA_self] at hcon
      exact absurd hcon (by simp)
    · intro E hE
      rw [lookupA_setA_self] at hE
      rcases Option.some_injective _ hE with rfl
      constructor
      · rw [hAppAll d', if_pos rfl]
        simp
      · exact hE2
  · have hne : d ≠ d' := fun hc => hd hc.symm
    have hLk : lookupA (setA R d E2) d' = lookupA R d' :=
      lookupA_setA_ne R d d' _ hne
    constructor
    · intro hnone
      rw [hLk] at hnone
      rw [hAppAll d', if_neg hne, List.append_nil]
      exact (hInv d').1 hnone
    · intro E hE
      rw [hLk] at hE
      obtain ⟨h1, h2⟩ := (hInv d').2 E hE
      refine ⟨?_, hOther d' E hne h2⟩
      rw [hAppAll d', if_neg hne, List.append_nil]
      exact h1

theorem processDep_false_inv (ts : List (String × String × String)) (R : Reqs)
    (pname d v : String) (hp : pname ≠ "version_specifiers") (hInv : ReqsInv ts R) :
    ∃ R2, processDep false pname R (d, v) = .ok R2 ∧
      ReqsInv (ts ++ [(pname, d, v)]) R2 := by
  cases hR : lookupA R d with
  | none =>
    have hA : allVers ts d = [] := (hInv d).1 hR
    exact ⟨_, processDep_none false pname R d v hR,
      ReqsInv_setA_entry ts R pname d v _ hInv (EntryInv_fresh ts d pname v hp hA)⟩
  | some E =>
    obtain ⟨hAne, hEInv⟩ := (hInv d).2 E hR
    have hEp := hEInv.2 pname hp
    by_cases hPnil : pairVers ts pname d = []
    · rw [if_pos hPnil] at hEp
      refine ⟨_, processDep_newpkg false pname R d v E hR hEp, ?_⟩
      refine ReqsInv_setA_entry ts R pname d v _ hInv ?_
      have := EntryInv_update ts d pname v hp E hEInv [v] (by rw [hPnil]; simp)
      exact this
    · rw [if_neg hPnil] at hEp
      refine ⟨_, processDep_oldpkg_false pname R d v E _ hR hEp, ?_⟩
      refine ReqsInv_setA_entry ts R pname d v _ hInv ?_
      exact EntryInv_update ts d pname v hp E hEInv _ rfl

theorem processDep_true_inv (ts : List (String × String × String)) (R : Reqs)
    (pname d v : String) (hp : pname ≠ "version_specifiers") (hInv : ReqsInv ts R)
    (hNew : pairVers ts pname d = []) :
    ∃ R2, processDep true pname R (d, v) = .ok R2 ∧
      ReqsInv (ts ++ [(pname, d, v)]) R2 := by
  cases hR : lookupA R d with
  | none =>
    have hA : allVers ts d = [] := (hInv d).1 hR
    exact ⟨_, processDep_none true pname R d v hR,
      ReqsInv_setA_entry ts R pname d v _ hInv (EntryInv_fresh ts d pname v hp hA)⟩
  | some E =>
    obtain ⟨hAne, hEInv⟩ := (hInv d).2 E hR
    have hEp := hEInv.2 pname hp
    rw [if_pos hNew] at hEp
    refine ⟨_, processDep_newpkg true pname R d v E hR hEp, ?_⟩
    refine ReqsInv_setA_entry ts R pname d v _ hInv ?_
    exact EntryInv_update ts d pname v hp E hEInv [v] (by rw [hNew]; simp)

/-! ## The membership invariant, valid for arbitrary package names -/

theorem MemInv_setA_entry (ts : List (String × String × String)) (R : Reqs)
    (pname d v : String) (E2 : Entry) (hInv : MemInv ts R)
    (hE2 : ∃ L, lookupA E2 "version_specifiers" = some L ∧
      ∀ x, x ∈ L ↔ x ∈ allVers ts d ∨ x = v) :
    MemInv (ts ++ [(pname, d, v)]) (setA R d E2) := by
  intro d'
  by_cases hd : d' = d
  · subst hd
    constructor
    · intro hcon
      rw [lookupA_setA_self] at hcon
      exact absurd hcon (by simp)
    · intro E hE
      rw [lookupA_setA_self] at hE
      rcases Option.some_injective _ hE with rfl
      obtain ⟨L, hL, hmem⟩ := hE2
      refine ⟨L, hL, ?_⟩
      intro x
      rw [hmem x, allVers_snoc ts pname d' v d', if_pos rfl]
      simp
  · have hne : d ≠ d' := fun hc => hd hc.symm
    have hLk : lookupA (setA R d E2) d' = lookupA R d' :=
      lookupA_setA_ne R d d' _ hne
    have hAV : allVers (ts ++ [(pname, d, v)]) d' = allVers ts d' := by
      rw [allVers_snoc ts pname d v d', if_neg hne, List.append_nil]
    constructor
    · intro hnone
      rw [hLk] at hnone
      rw [hAV]
      exact (hInv d').1 hnone
    · intro E hE
      rw [hLk] at hE
      obtain ⟨L, hL, hmem⟩ := (hInv d').2 E hE
      exact ⟨L, hL, by rw [hAV]; exact hmem⟩

theorem processDep_false_mem (ts : List (String × String × String)) (R : Reqs)
    (pname d v : String) (hInv : MemInv ts R) :
    ∃ R2, processDep false pname R (d, v) = .ok R2 ∧
      MemInv (ts ++ [(pname, d, v)]) R2 := by
  cases hR : lookupA R d with
  | none =>
    have hA : allVers ts d = [] := (hInv d).1 hR
    refine ⟨_, processDep_none false pname R d v hR,
      MemInv_setA_entry ts R pname d v _ hInv ?_⟩
    by_cases hpn : pname = "version_specifiers"
    · have hvs : lookupA [(pname, [v])] "version_specifiers" = some [v] := by
        rw [← hpn]
        simp [lookupA]
      refine ⟨[v], ?_, ?_⟩
      · rw [addVS_of_vs_some _ _ [v] hvs, if_pos (by simp [List.contains])]
        exact hvs
      · intro x
        rw [hA]
        simp
    · refine ⟨[v], ?_, ?_⟩
      · exact lookupA_addVS_vs_none _ _ (by simp [lookupA, hpn])
      · intro x
        rw [hA]
        simp
  | some E =>
    obtain ⟨L, hL, hmem⟩ := (hInv d).2 E hR
    by_cases hpn : pname = "version_specifiers"
    · have hEp : lookupA E pname = some L := by rw [hpn]; exact hL
      refine ⟨_, processDep_oldpkg_false pname R d v E L hR hEp,
        MemInv_setA_entry ts R pname d v _ hInv ?_⟩
      have hE1vs : lookupA (setA E pname (L ++ [v])) "version_specifiers" =
          some (L ++ [v]) := by
        rw [hpn]
        exact lookupA_setA_self E "version_specifiers" (L ++ [v])
      refine ⟨L ++ [v], ?_, ?_⟩
      · rw [addVS_of_vs_some _ _ (L ++ [v]) hE1vs, if_pos (by simp [List.contains])]
        exact hE1vs
      · intro x
        simp only [List.mem_append, List.mem_singleton]
        rw [hmem x]
    · cases hEp : lookupA E pname with
      | none =>
        refine ⟨_, processDep_newpkg false pname R d v E hR hEp,
          MemInv_setA_entry ts R pname d v _ hInv ?_⟩
        have hE1vs : lookupA (setA E pname [v]) "version_specifiers" = some L := by
          rw [lookupA_setA_ne _ _ _ _ hpn]
          exact hL
        refine ⟨setInsert L v, lookupA_addVS_vs_some _ v L hE1vs, ?_⟩
        intro x
        rw [mem_setInsert, hmem x]
      | some w =>
        refine ⟨_, processDep_oldpkg_false pname R d v E w hR hEp,
          MemInv_setA_entry ts R pname d v _ hInv ?_⟩
        have hE1vs : lookupA (setA E pname (w ++ [v])) "version_specifiers" = some L := by
          rw [lookupA_setA_ne _ _ _ _ hpn]
          exact hL
        refine ⟨setInsert L v, lookupA_addVS_vs_some _ v L hE1vs, ?_⟩
        intro x
        rw [mem_setInsert, hmem x]

/-! ## Folding whole requirement lists and package lists -/

theorem aggDeps_false_inv (pname : String) (hp : pname ≠ "version_specifiers") :
    ∀ (dl : DepList) (R : Reqs) (ts : List (String × String × String)),
    ReqsInv ts R →
    ∃ R2, aggDeps false pname R dl = .ok R2 ∧
      ReqsInv (ts ++ dl.map (fun q => (pname, q.1, q.2))) R2 := by
  intro dl
  induction dl with
  | nil =>
    intro R ts h
    exact ⟨R, rfl, by simpa using h⟩
  | cons dv rest ih =>
    intro R ts h
    obtain ⟨R1, hstep, hinv1⟩ := processDep_false_inv ts R pname dv.1 dv.2 hp h
    obtain ⟨R2, hrest, hinv2⟩ := ih R1 (ts ++ [(pname, dv.1, dv.2)]) hinv1
    refine ⟨R2, ?_, ?_⟩
    · simp only [aggDeps, hstep]
      exact hrest
    · rw [List.map_cons, List.append_cons]
      exact hinv2

theorem aggDeps_false_mem (pname : String) :
    ∀ (dl : DepList) (R : Reqs) (ts : List (String × String × String)),
    MemInv ts R →
    ∃ R2, aggDeps false pname R dl = .ok R2 ∧
      MemInv (ts ++ dl.map (fun q => (pname, q.1, q.2))) R2 := by
  intro dl
  induction dl with
  | nil =>
    intro R ts h
    exact ⟨R, rfl, by simpa using h⟩
  | cons dv rest ih =>
    intro R ts h
    obtain ⟨R1, hstep, hinv1⟩ := processDep_false_mem ts R pname dv.1 dv.2 h
    obtain ⟨R2, hrest, hinv2⟩ := ih R1 (ts ++ [(pname, dv.1, dv.2)]) hinv1
    refine ⟨R2, ?_, ?_⟩
    · simp only [aggDeps, hstep]
      exact hrest
    · rw [List.map_cons, List.append_cons]
      exact hinv2

theorem aggDeps_true_inv (pname : String) (hp : pname ≠ "version_specifiers") :
    ∀ (dl : DepList) (R : Reqs) (ts : List (String × String × String)),
    ReqsInv ts R →
    (pairsOf (ts ++ dl.map (fun q => (pname, q.1, q.2)))).Nodup →
    ∃ R2, aggDeps true pname R dl = .ok R2 ∧
      ReqsInv (ts ++ dl.map (fun q => (pname, q.1, q.2))) R2 := by
  intro dl
  induction dl with
  | nil =>
    intro R ts h _
    exact ⟨R, rfl, by simpa using h⟩
  | cons dv rest ih =>
    intro R ts h hnd
    have hnd2 : (pairsOf ts ++
        ((pname, dv.1) :: pairsOf (rest.map (fun q => (pname, q.1, q.2))))).Nodup := by
      unfold pairsOf at hnd ⊢
      rw [List.map_append, List.map_cons] at hnd
      exact hnd
    have hdisj := List.disjoint_of_nodup_append hnd2
    have hNew : pairVers ts pname dv.1 = [] := by
      rw [List.eq_nil_iff_forall_not_mem]
      intro x hx
      have hmemts : (pname, dv.1, x) ∈ ts := (mem_pairVers ts pname dv.1 x).mp hx
      have hpair : (pname, dv.1) ∈ pairsOf ts := by
        unfold pairsOf
        exact List.mem_map.mpr ⟨(pname, dv.1, x), hmemts, rfl⟩
      exact hdisj hpair (List.mem_cons_self _ _)
    obtain ⟨R1, hstep, hinv1⟩ := processDep_true_inv ts R pname dv.1 dv.2 hp h hNew
    have hnd3 : (pairsOf ((ts ++ [(pname, dv.1, dv.2)]) ++
        rest.map (fun q => (pname, q.1, q.2)))).Nodup := by
      rw [← List.append_cons, ← List.map_cons]
      exact hnd
    obtain ⟨R2, hrest, hinv2⟩ := ih R1 (ts ++ [(pname, dv.1, dv.2)]) hinv1 hnd3
    refine ⟨R2, ?_, ?_⟩
    · simp only [aggDeps, hstep]
      exact hrest
    · rw [List.map_cons, List.append_cons]
      exact hinv2

theorem aggPackages_false_inv :
    ∀ (pl : List PackageDict) (R : Reqs) (done : List PackageDict)
      (ts : List (String × String × String)),
    ReqsInv ts R →
    (∀ pkg ∈ pl, pkg ≠ []) →
    (∀ pkg ∈ pl, ∀ kv ∈ pkg, kv.1 ≠ "version_specifiers") →
    ∃ R2, aggPackages false R done pl = .ok (R2, done ++ pl.map List.dropLast) ∧
      ReqsInv (ts ++ flatTriples pl) R2 := by
  intro pl
  induction pl with
  | nil =>
    intro R done ts h _ _
    exact ⟨R, by simp [aggPackages], by simpa [flatTriples] using h⟩
  | cons pkg rest ih =>
    intro R done ts h hne hgood
    obtain ⟨kv, hlast⟩ : ∃ kv, pkg.getLast? = some kv := by
      cases hl : pkg.getLast? with
      | none =>
        exact absurd (List.getLast?_eq_none_iff.mp hl) (hne pkg (List.mem_cons_self _ _))
      | some kv => exact ⟨kv, rfl⟩
    have hpop : popitemD pkg = some ((kv.1, kv.2), pkg.dropLast) := by
      unfold popitemD
      rw [hlast]
    have hkv : kv.1 ≠ "version_specifiers" :=
      hgood pkg (List.mem_cons_self _ _) kv (List.mem_of_getLast?_eq_some hlast)
    obtain ⟨R1, hdeps, hinv1⟩ := aggDeps_false_inv kv.1 hkv kv.2 R ts h
    obtain ⟨R2, hrest, hinv2⟩ := ih R1 (done ++ [pkg.dropLast])
      (ts ++ kv.2.map (fun q => (kv.1, q.1, q.2))) hinv1
      (fun p hp => hne p (List.mem_cons_of_mem _ hp))
      (fun p hp => hgood p (List.mem_cons_of_mem _ hp))
    refine ⟨R2, ?_, ?_⟩
    · simp only [aggPackages, hpop, hdeps]
      rw [hrest]
      simp
    · simp only [flatTriples, hpop]
      rw [← List.append_assoc]
      exact hinv2

theorem aggPackages_false_mem :
    ∀ (pl : List PackageDict) (R : Reqs) (done : List PackageDict)
      (ts : List (String × String × String)),
    MemInv ts R →
    (∀ pkg ∈ pl, pkg ≠ []) →
    ∃ R2, aggPackages false R done pl = .ok (R2, done ++ pl.map List.dropLast) ∧
      MemInv (ts ++ flatTriples pl) R2 := by
  intro pl
  induction pl with
  | nil =>
    intro R done ts h _
    exact ⟨R, by simp [aggPackages], by simpa [flatTriples] using h⟩
  | cons pkg rest ih =>
    intro R done ts h hne
    obtain ⟨kv, hlast⟩ : ∃ kv, pkg.getLast? = some kv := by
      cases hl : pkg.getLast? with
      | none =>
        exact absurd (List.getLast?_eq_none_iff.mp hl) (hne pkg (List.mem_cons_self _ _))
      | some kv => exact ⟨kv, rfl⟩
    have hpop : popitemD pkg = some ((kv.1, kv.2), pkg.dropLast) := by
      unfold popitemD
      rw [hlast]
    obtain ⟨R1, hdeps, hinv1⟩ := aggDeps_false_mem kv.1 kv.2 R ts h
    obtain ⟨R2, hrest, hinv2⟩ := ih R1 (done ++ [pkg.dropLast])
      (ts ++ kv.2.map (fun q => (kv.1, q.1, q.2))) hinv1
      (fun p hp => hne p (List.mem_cons_of_mem _ hp))
    refine ⟨R2, ?_, ?_⟩
    · simp only [aggPackages, hpop, hdeps]
      rw [hrest]
      simp
    · simp only [flatTriples, hpop]
      rw [← List.append_assoc]
      exact hinv2

theorem aggPackages_true_inv :
    ∀ (pl : List PackageDict) (R : Reqs) (done : List PackageDict)
      (ts : List (String × String × String)),
    ReqsInv ts R →
    (∀ pkg ∈ pl, pkg ≠ []) →
    (∀ pkg ∈ pl, ∀ kv ∈ pkg, kv.1 ≠ "version_specifiers") →
    (pairsOf (ts ++ flatTriples pl)).Nodup →
    ∃ R2, aggPackages true R done pl = .ok (R2, done ++ pl.map List.dropLast) ∧
      ReqsInv (ts ++ flatTriples pl) R2 := by
  intro pl
  induction pl with
  | nil =>
    intro R done ts h _ _ _
    exact ⟨R, by simp [aggPackages], by simpa [flatTriples] using h⟩
  | cons pkg rest ih =>
    intro R done ts h hne hgood hnd
    obtain ⟨kv, hlast⟩ : ∃ kv, pkg.getLast? = some kv := by
      cases hl : pkg.getLast? with
      | none =>
        exact absurd (List.getLast?_eq_none_iff.mp hl) (hne pkg (List.mem_cons_self _ _))
      | some kv => exact ⟨kv, rfl⟩
    have hpop : popitemD pkg = some ((kv.1, kv.2), pkg.dropLast) := by
      unfold popitemD
      rw [hlast]
    have hkv : kv.1 ≠ "version_specifiers" :=
      hgood pkg (List.mem_cons_self _ _) kv (List.mem_of_getLast?_eq_some hlast)
    have hft : flatTriples (pkg :: rest) =
        kv.2.map (fun q => (kv.1, q.1, q.2)) ++ flatTriples rest := by
      simp only [flatTriples, hpop]
    have hnd1 : (pairsOf (ts ++ kv.2.map (fun q => (kv.1, q.1, q.2)))).Nodup := by
      have hsub : (ts ++ kv.2.map (fun q => (kv.1, q.1, q.2))).Sublist
          (ts ++ flatTriples (pkg :: rest)) := by
        rw [hft, ← List.append_assoc]
        exact List.sublist_append_left _ _
      exact (hsub.map _).nodup hnd
    obtain ⟨R1, hdeps, hinv1⟩ := aggDeps_true_inv kv.1 hkv kv.2 R ts h hnd1
    have hnd2 : (pairsOf ((ts ++ kv.2.map (fun q => (kv.1, q.1, q.2))) ++
        flatTriples rest)).Nodup := by
      rw [List.append_assoc, ← hft]
      exact hnd
    obtain ⟨R2, hrest, hinv2⟩ := ih R1 (done ++ [pkg.dropLast])
      (ts ++ kv.2.map (fun q => (kv.1, q.1, q.2))) hinv1
      (fun p hp => hne p (List.mem_cons_of_mem _ hp))
      (fun p hp => hgood p (List.mem_cons_of_mem _ hp)) hnd2
    refine ⟨R2, ?_, ?_⟩
    · simp only [aggPackages, hpop, hdeps]
      rw [hrest]
      simp
    · rw [hft, ← List.append_assoc]
      exact hinv2

theorem aggPackages_popState (raiseC : Bool) :
    ∀ (pl : List PackageDict) (acc : Reqs) (done : List PackageDict) (R2 : Reqs)
      (l2 : List PackageDict),
    aggPackages raiseC acc done pl = .ok (R2, l2) →
    l2 = done ++ pl.map List.dropLast := by
  intro pl
  induction pl with
  | nil =>
    intro acc done R2 l2 h
    simp only [aggPackages] at h
    rcases h with ⟨rfl, rfl⟩ | _
    simp
  | cons pkg rest ih =>
    intro acc done R2 l2 h
    cases hpop : popitemD pkg with
    | none =>
      simp only [aggPackages, hpop] at h
      exact absurd h (by simp)
    | some pr =>
      obtain ⟨⟨pname, dl⟩, pkgRest⟩ := pr
      have hrest_eq : pkgRest = pkg.dropLast := by
        unfold popitemD at hpop
        cases hl : pkg.getLast? with
        | none =>
          rw [hl] at hpop
          simp at hpop
        | some kv =>
          rw [hl] at hpop
          simp only [Option.some.injEq, Prod.mk.injEq] at hpop
          exact hpop.2.symm
      cases hdeps : aggDeps raiseC pname acc dl with
      | error e =>
        simp only [aggPackages, hpop, hdeps] at h
        exact absurd h (by simp)
      | ok acc2 =>
        simp only [aggPackages, hpop, hdeps] at h
        have := ih acc2 (done ++ [pkgRest]) R2 l2 h
        rw [this, hrest_eq]
        simp

/-! ## Top-level characterizations of build_requirements_list -/

theorem ReqsInv_nil : ReqsInv [] [] := by
  intro d
  constructor
  · intro _
    rfl
  · intro E hE
    exact absurd hE (by simp [lookupA])

theorem MemInv_nil : MemInv [] [] := by
  intro d
  constructor
  · intro _
    rfl
  · intro E hE
    exact absurd hE (by simp [lookupA])

theorem build_false_master (pl : List PackageDict)
    (h1 : ∀ pkg ∈ pl, pkg ≠ [])
    (h2 : ∀ pkg ∈ pl, ∀ kv ∈ pkg, kv.1 ≠ "version_specifiers") :
    ∃ R, build_requirements_list pl false = .ok (R, pl.map List.dropLast) ∧
      ReqsInv (flatTriples pl) R := by
  obtain ⟨R, hok, hinv⟩ := aggPackages_false_inv pl [] [] [] ReqsInv_nil h1 h2
  exact ⟨R, by simpa using hok, by simpa using hinv⟩

theorem build_false_mem (pl : List PackageDict) (h1 : ∀ pkg ∈ pl, pkg ≠ []) :
    ∃ R, build_requirements_list pl false = .ok (R, pl.map List.dropLast) ∧
      MemInv (flatTriples pl) R := by
  obtain ⟨R, hok, hinv⟩ := aggPackages_false_mem pl [] [] [] MemInv_nil h1
  exact ⟨R, by simpa using hok, by simpa using hinv⟩

theorem build_true_nodup (pl : List PackageDict)
    (h1 : ∀ pkg ∈ pl, pkg ≠ [])
    (h2 : ∀ pkg ∈ pl, ∀ kv ∈ pkg, kv.1 ≠ "version_specifiers")
    (hnd : (pairsOf (flatTriples pl)).Nodup) :
    ∃ R, build_requirements_list pl true = .ok (R, pl.map List.dropLast) ∧
      ReqsInv (flatTriples pl) R := by
  obtain ⟨R, hok, hinv⟩ := aggPackages_true_inv pl [] [] [] ReqsInv_nil h1 h2 (by simpa using hnd)
  exact ⟨R, by simpa using hok, by simpa using hinv⟩

theorem build_popState (pl : List PackageDict) (raiseC : Bool) (R : Reqs)
    (l2 : List PackageDict) (h : build_requirements_list pl raiseC = .ok (R, l2)) :
    l2 = pl.map List.dropLast := by
  have := aggPackages_popState raiseC pl [] [] R l2 h
  simpa using this

theorem vsList_of_ReqsInv (ts : List (String × String × String)) (R : Reqs) (d : String)
    (h : ReqsInv ts R) : vsList R d = dedupL (allVers ts d) := by
  unfold vsList
  cases hR : lookupA R d with
  | none =>
    have hnil : allVers ts d = [] := (h d).1 hR
    rw [hnil]
    rfl
  | some E =>
    obtain ⟨_, hE⟩ := (h d).2 E hR
    show (lookupA E "version_specifiers").getD [] = dedupL (allVers ts d)
    rw [hE.1]
    rfl

theorem vsList_mem_of_MemInv (ts : List (String × String × String)) (R : Reqs) (d : String)
    (h : MemInv ts R) (v : String) : v ∈ vsList R d ↔ v ∈ allVers ts d := by
  unfold vsList
  cases hR : lookupA R d with
  | none =>
    have hnil : allVers ts d = [] := (h d).1 hR
    rw [hnil]
  | some E =>
    obtain ⟨L, hL, hmem⟩ := (h d).2 E hR
    show v ∈ (lookupA E "version_specifiers").getD [] ↔ v ∈ allVers ts d
    rw [hL]
    exact hmem v

theorem mem_flatTriples (pl : List PackageDict) (t : String × String × String) :
    t ∈ flatTriples pl ↔
      ∃ pkg ∈ pl, ∃ dl r, popitemD pkg = some ((t.1, dl), r) ∧ t.2 ∈ dl := by
  induction pl with
  | nil => simp [flatTriples]
  | cons pkg rest ih =>
    simp only [flatTriples, List.mem_append, ih, List.mem_cons]
    constructor
    · rintro (hleft | ⟨q, hq, dl, r, hpop, ht⟩)
      · cases hpop : popitemD pkg with
        | none =>
          rw [hpop] at hleft
          exact absurd hleft (by simp)
        | some pr =>
          obtain ⟨⟨pn, dl⟩, r⟩ := pr
          rw [hpop] at hleft
          rcases List.mem_map.mp hleft with ⟨q, hq, hqe⟩
          refine ⟨pkg, Or.inl rfl, dl, r, ?_, ?_⟩
          · rw [hpop, ← hqe]
          · rw [← hqe]
            exact hq
      · exact ⟨q, Or.inr hq, dl, r, hpop, ht⟩
    · rintro ⟨q, hq | hq, dl, r, hpop, ht⟩
      · left
        subst hq
        rw [hpop]
        exact List.mem_map.mpr ⟨t.2, ht, rfl⟩
      · right
        exact ⟨q, hq, dl, r, hpop, ht⟩

/-! ## Lemmas on the Requirement Extractor -/

theorem unionKey_error (e : ExtractError) (b : Bool) (g : List ReqGroup) :
    unionKey (.error e) b g = .error e := rfl

theorem unionKey_nodup (acc : Except ExtractError (List String)) (b : Bool)
    (g : List ReqGroup) (L : List String)
    (hacc : ∀ s, acc = .ok s → s.Nodup) (h : unionKey acc b g = .ok L) : L.Nodup := by
  cases acc with
  | error e =>
    rw [unionKey_error] at h
    exact absurd h (by simp)
  | ok s =>
    have hs := hacc s rfl
    simp only [unionKey] at h
    cases b with
    | false =>
      simp only [Bool.false_eq_true, if_false, Except.ok.injEq] at h
      rw [← h]
      exact hs
    | true =>
      simp only [if_true] at h
      cases hg : get_requirements g with
      | none =>
        simp only [hg] at h
        exact absurd h (by simp)
      | some reqs =>
        simp only [hg, Except.ok.injEq] at h
        rw [← h]
        exact nodup_foldl_setInsert reqs s hs

theorem requirementStrings_nodup (md : PackageMetadata) (opts : ExtractOpts)
    (L : List String) (h : requirementStrings md opts = .ok L) : L.Nodup := by
  unfold requirementStrings at h
  refine unionKey_nodup _ _ _ _ (fun s4 h4 => ?_) h
  refine unionKey_nodup _ _ _ _ (fun s3 h3 => ?_) h4
  refine unionKey_nodup _ _ _ _ (fun s2 h2 => ?_) h3
  refine unionKey_nodup _ _ _ _ (fun s1 h1 => ?_) h2
  refine unionKey_nodup _ _ _ _ (fun s0 h0 => ?_) h1
  simp only [Except.ok.injEq] at h0
  rw [← h0]
  exact List.nodup_nil

theorem parseRequirement_ok_iff (s : String) :
    (∃ r, parseRequirement s = .ok r) ↔ (pySplit s).length = 2 := by
  unfold parseRequirement
  cases h : pySplit s with
  | nil => simp
  | cons a t =>
    cases t with
    | nil => simp
    | cons b t2 =>
      cases t2 with
      | nil => simp
      | cons c t3 => simp

theorem parseRequirement_error_eq (s : String) (e : ExtractError)
    (h : parseRequirement s = .error e) : e = .malformedRequirement := by
  unfold parseRequirement at h
  cases hs : pySplit s with
  | nil =>
    rw [hs] at h
    simp only [Except.error.injEq] at h
    exact h.symm
  | cons a t =>
    cases t with
    | nil =>
      rw [hs] at h
      simp only [Except.error.injEq] at h
      exact h.symm
    | cons b t2 =>
      cases t2 with
      | nil =>
        rw [hs] at h
        exact absurd h (by simp)
      | cons c t3 =>
        rw [hs] at h
        simp only [Except.error.injEq] at h
        exact h.symm

theorem parseRequirements_ok_tokens (L : List String) (rs : List (String × String))
    (h : parseRequirements L = .ok rs) : ∀ s ∈ L, (pySplit s).length = 2 := by
  induction L generalizing rs with
  | nil => intro s hs; cases hs
  | cons a rest ih =>
    intro s hs
    unfold parseRequirements at h
    cases hp : parseRequirement a with
    | error e =>
      rw [hp] at h
      exact absurd h (by simp)
    | ok r =>
      rw [hp] at h
      cases hr : parseRequirements rest with
      | error e =>
        rw [hr] at h
        exact absurd h (by simp)
      | ok rs2 =>
        rw [hr] at h
        rcases List.mem_cons.mp hs with rfl | hs2
        · exact (parseRequirement_ok_iff s).mp ⟨r, hp⟩
        · exact ih rs2 hr s hs2

theorem parseRequirements_malformed (L : List String) (s : String) (hs : s ∈ L)
    (hbad : (pySplit s).length ≠ 2) :
    parseRequirements L = .error .malformedRequirement := by
  induction L with
  | nil => cases hs
  | cons a rest ih =>
    unfold parseRequirements
    cases hp : parseRequirement a with
    | error e =>
      rw [parseRequirement_error_eq a e hp]
    | ok r =>
      rcases List.mem_cons.mp hs with rfl | hs2
      · exact absurd ((parseRequirement_ok_iff s).mp ⟨r, hp⟩) hbad
      · rw [ih hs2]

theorem parseRequirements_count (L : List String) (rs : List (String × String))
    (h : parseRequirements L = .ok rs) (x : String × String) :
    rs.count x = L.countP
      (fun s => match parseRequirement s with | .ok r => r == x | .error _ => false) := by
  induction L generalizing rs with
  | nil =>
    unfold parseRequirements at h
    simp only [Except.ok.injEq] at h
    rw [← h]
    rfl
  | cons a rest ih =>
    unfold parseRequirements at h
    cases hp : parseRequirement a with
    | error e =>
      rw [hp] at h
      exact absurd h (by simp)
    | ok r =>
      rw [hp] at h
      cases hr : parseRequirements rest with
      | error e =>
        rw [hr] at h
        exact absurd h (by simp)
      | ok rs2 =>
        rw [hr] at h
        simp only [Except.ok.injEq] at h
        rw [← h, List.count_cons, List.countP_cons, ih rs2 hr, hp]

theorem build_requirements_of_strings (md : PackageMetadata) (opts : ExtractOpts)
    (L : List String) (rs : List (String × String))
    (hL : requirementStrings md opts = .ok L) (hrs : parseRequirements L = .ok rs) :
    build_package_requirements md opts = .ok (md.name, rs) := by
  unfold build_package_requirements
  simp only [hL, hrs]

theorem build_ok_strings (md : PackageMetadata) (opts : ExtractOpts)
    (res : String × List (String × String))
    (h : build_package_requirements md opts = .ok res) :
    ∃ L, requirementStrings md opts = .ok L ∧ parseRequirements L = .ok res.2 := by
  unfold build_package_requirements at h
  cases hL : requirementStrings md opts with
  | error e =>
    simp only [hL] at h
    exact absurd h (by simp)
  | ok L =>
    simp only [hL] at h
    cases hrs : parseRequirements L with
    | error e =>
      simp only [hrs] at h
      exact absurd h (by simp)
    | ok rs =>
      simp only [hrs, Except.ok.injEq] at h
      refine ⟨L, rfl, ?_⟩
      rw [← h]
      exact hrs

theorem build_malformed (md : PackageMetadata) (opts : ExtractOpts)
    (L : List String) (s : String) (hL : requirementStrings md opts = .ok L)
    (hs : s ∈ L) (hbad : (pySplit s).length ≠ 2) :
    build_package_requirements md opts = .error .malformedRequirement := by
  unfold build_package_requirements
  simp only [hL, parseRequirements_malformed L s hs hbad]

/-! ## Lemmas on the requirement-group selection helper -/

theorem find?_first_unique {α : Type} (p : α → Bool) (l : List α) (g : α)
    (hg : g ∈ l) (hp : p g = true) (huniq : ∀ x ∈ l, p x = true → x = g) :
    l.find? p = some g := by
  induction l with
  | nil => cases hg
  | cons a rest ih =>
    by_cases ha : p a
    · have hag : a = g := huniq a (List.mem_cons_self _ _) (by simpa using ha)
      rw [List.find?_cons_of_pos _ (by simpa using ha), hag]
    · rw [List.find?_cons_of_neg _ (by simpa using ha)]
      have hgr : g ∈ rest := by
        rcases List.mem_cons.mp hg with rfl | hr
        · exact absurd hp (by simpa using ha)
        · exact hr
      exact ih hgr (fun x hx hpx => huniq x (List.mem_cons_of_mem _ hx) hpx)

theorem get_requirements_all_wins (groups : List ReqGroup) (g : ReqGroup)
    (hlen : 1 < groups.length) (hg : g ∈ groups) (hall : g.extra = some "all")
    (huniq : ∀ x ∈ groups, x.extra = some "all" → x = g) :
    get_requirements groups = g.reqs := by
  unfold get_requirements
  rw [if_pos hlen]
  rw [find?_first_unique (fun x => x.extra == some "all") groups g hg
    (by simp [hall]) (fun x hx hpx => huniq x hx (by simpa using hpx))]

theorem get_requirements_no_all (groups : List ReqGroup)
    (hlen : 1 < groups.length) (hnone : ∀ g ∈ groups, g.extra ≠ some "all") :
    get_requirements groups = none := by
  unfold get_requirements
  rw [if_pos hlen]
  rw [List.find?_eq_none.mpr (fun x hx => by simpa using hnone x hx)]

theorem get_requirements_single (g : ReqGroup) : get_requirements [g] = g.reqs := by
  unfold get_requirements
  rw [if_neg (by simp)]

theorem requirementStrings_run_typeError (md : PackageMetadata) (opts : ExtractOpts)
    (hrun : opts.run_requires = true)
    (hnone : get_requirements md.run_requires = none) :
    requirementStrings md opts = .error .typeError := by
  unfold requirementStrings
  have h0 : unionKey (.ok []) opts.run_requires md.run_requires =
      .error .typeError := by
    simp only [unionKey, hrun, if_true, hnone]
  rw [h0, unionKey_error, unionKey_error, unionKey_error, unionKey_error]

theorem build_typeError_of_run (md : PackageMetadata) (opts : ExtractOpts)
    (hrun : opts.run_requires = true)
    (hnone : get_requirements md.run_requires = none) :
    build_package_requirements md opts = .error .typeError := by
  unfold build_package_requirements
  simp only [requirementStrings_run_typeError md opts hrun hnone]

/-! ## Lemmas on canonicalization -/

theorem charToNat_ofNat (n : Nat) (h : n < 0xd800) : (Char.ofNat n).toNat = n := by
  rw [Char.ofNat, dif_pos (Or.inl h)]
  rfl

theorem toLower_toNat_of_upper (c : Char) (h1 : 65 ≤ c.toNat) (h2 : c.toNat ≤ 90) :
    c.toLower.toNat = c.toNat + 32 := by
  rw [Char.toLower, if_pos ⟨h1, h2⟩]
  exact charToNat_ofNat _ (by omega)

theorem toLower_of_not_upper (c : Char) (h : ¬(65 ≤ c.toNat ∧ c.toNat ≤ 90)) :
    c.toLower = c := by
  rw [Char.toLower, if_neg h]

theorem toLower_idem (c : Char) : c.toLower.toLower = c.toLower := by
  by_cases h : 65 ≤ c.toNat ∧ c.toNat ≤ 90
  · have h1 := toLower_toNat_of_upper c h.1 h.2
    apply toLower_of_not_upper
    omega
  · rw [toLower_of_not_upper c h, toLower_of_not_upper c h]

theorem isSepChar_toNat (c : Char) :
    isSepChar c = true ↔ (c.toNat = 45 ∨ c.toNat = 95 ∨ c.toNat = 46) := by
  constructor
  · intro h
    simp only [isSepChar, Bool.or_eq_true, beq_iff_eq] at h
    rcases h with (h | h) | h <;> subst h <;> simp [Char.toNat]
  · intro h
    have hc : c = Char.ofNat c.toNat := (Char.ofNat_toNat c).symm
    have hone : c = '-' ∨ c = '_' ∨ c = '.' := by
      rcases h with h | h | h
      · left; rw [hc, h]
      · right; left; rw [hc, h]
      · right; right; rw [hc, h]
    rcases hone with h | h | h <;> subst h <;> rfl

theorem isSepChar_toLower (c : Char) (h : isSepChar c = false) :
    isSepChar c.toLower = false := by
  by_cases hu : 65 ≤ c.toNat ∧ c.toNat ≤ 90
  · have h1 := toLower_toNat_of_upper c hu.1 hu.2
    by_contra hcon
    have := (isSepChar_toNat c.toLower).mp (by revert hcon; cases isSepChar c.toLower <;> simp)
    omega
  · rw [toLower_of_not_upper c hu]
    exact h

theorem toLower_of_sep (c : Char) (h : isSepChar c = true) : c.toLower = c := by
  have := (isSepChar_toNat c).mp h
  apply toLower_of_not_upper
  omega

theorem canonAux_idem : ∀ (l : List Char) (b : Bool),
    canonAux b (canonAux b l) = canonAux b l := by
  intro l
  induction l with
  | nil => intro b; rfl
  | cons c cs ih =>
    intro b
    by_cases hsep : isSepChar c
    · cases b with
      | true =>
        simp only [canonAux, hsep, if_true]
        exact ih true
      | false =>
        have h1 : canonAux false (c :: cs) = '-' :: canonAux true cs := by
          simp only [canonAux, hsep, if_true, Bool.false_eq_true, if_false]
        rw [h1]
        have h2 : canonAux false ('-' :: canonAux true cs) =
            '-' :: canonAux true (canonAux true cs) := rfl
        rw [h2, ih true]
    · simp only [canonAux, hsep, Bool.false_eq_true, if_false]
      simp only [canonAux, isSepChar_toLower c (by simpa using hsep),
        Bool.false_eq_true, if_false]
      rw [toLower_idem, ih false]

theorem canonicalize_name_idem (s : String) :
    canonicalize_name (canonicalize_name s) = canonicalize_name s := by
  unfold canonicalize_name
  rw [canonAux_idem]

theorem canonAux_variant : ∀ (l1 l2 : List Char) (b : Bool),
    l1.length = l2.length →
    (∀ q ∈ l1.zip l2, charVariant q.1 q.2 = true) →
    canonAux b l1 = canonAux b l2 := by
  intro l1
  induction l1 with
  | nil =>
    intro l2 b hlen _
    cases l2 with
    | nil => rfl
    | cons a t => cases hlen
  | cons a t ih =>
    intro l2 b hlen hvar
    cases l2 with
    | nil => cases hlen
    | cons a2 t2 =>
      have hhead : charVariant a a2 = true :=
        hvar (a, a2) (by simp [List.zip_cons_cons])
      have htail : ∀ q ∈ t.zip t2, charVariant q.1 q.2 = true := by
        intro q hq
        exact hvar q (by simp [List.zip_cons_cons, hq])
      have hlen2 : t.length = t2.length := by
        simpa using hlen
      have hsep_eq : isSepChar a = isSepChar a2 := by
        simp only [charVariant, Bool.or_eq_true, Bool.and_eq_true, beq_iff_eq] at hhead
        rcases hhead with hlow | ⟨h1, h2⟩
        · cases hA : isSepChar a with
          | true =>
            cases hB : isSepChar a2 with
            | true => rfl
            | false =>
              have ha2 : a2.toLower = a := by rw [← hlow, toLower_of_sep a hA]
              have : isSepChar a2.toLower = false := isSepChar_toLower a2 hB
              rw [ha2] at this
              rw [hA] at this
              cases this
          | false =>
            cases hB : isSepChar a2 with
            | true =>
              have ha : a.toLower = a2 := by rw [hlow, toLower_of_sep a2 hB]
              have : isSepChar a.toLower = false := isSepChar_toLower a hA
              rw [ha] at this
              rw [hB] at this
              cases this
            | false => rfl
        · rw [h1, h2]
      by_cases hsep : isSepChar a
      · have hsep2 : isSepChar a2 = true := by rw [← hsep_eq]; simpa using hsep
        cases b with
        | true =>
          simp only [canonAux, hsep, hsep2, if_true]
          exact ih t2 true hlen2 htail
        | false =>
          simp only [canonAux, hsep, hsep2, if_true, Bool.false_eq_true, if_false]
          rw [ih t2 true hlen2 htail]
      · have hsep2 : isSepChar a2 = false := by
          rw [← hsep_eq]
          simpa using hsep
        have hlow : a.toLower = a2.toLower := by
          simp only [charVariant, Bool.or_eq_true, Bool.and_eq_true, beq_iff_eq] at hhead
          rcases hhead with hlow | ⟨h1, _⟩
          · exact hlow
          · exact absurd h1 (by simpa using hsep)
        simp only [canonAux, hsep, hsep2, Bool.false_eq_true, if_false]
        rw [hlow, ih t2 false hlen2 htail]

theorem canonicalize_name_variant (s t : String) (h : nameVariant s t = true) :
    canonicalize_name s = canonicalize_name t := by
  unfold canonicalize_name
  simp only [nameVariant, Bool.and_eq_true, beq_iff_eq, List.all_eq_true] at h
  rw [canonAux_variant s.data t.data false h.1 (fun q hq => h.2 q hq)]

/-! ## Derived characterizations used by the claims -/

theorem entryKeys_of_ReqsInv (ts : List (String × String × String)) (R : Reqs)
    (d : String) (E : Entry) (h : ReqsInv ts R) (hE : lookupA R d = some E)
    (k : String) :
    (lookupA E k).isSome ↔ (k = "version_specifiers" ∨ ∃ v, (k, d, v) ∈ ts) := by
  obtain ⟨_, hvs, hpk⟩ := (h d).2 E hE
  by_cases hk : k = "version_specifiers"
  · subst hk
    rw [hvs]
    simp
  · rw [hpk k hk]
    by_cases hnil : pairVers ts k d = []
    · rw [if_pos hnil]
      simp only [Option.isSome_none, Bool.false_eq_true, false_iff]
      rintro (hc | ⟨v, hv⟩)
      · exact hk hc
      · have : v ∈ pairVers ts k d := (mem_pairVers ts k d v).mpr hv
        rw [hnil] at this
        cases this
    · rw [if_neg hnil]
      simp only [Option.isSome_some, true_iff]
      right
      obtain ⟨x, hx⟩ := List.exists_mem_of_ne_nil _ hnil
      exact ⟨x, (mem_pairVers ts k d x).mp hx⟩

theorem dedupL_length_eq (l1 l2 : List String) (h : ∀ x, x ∈ l1 ↔ x ∈ l2) :
    (dedupL l1).length = (dedupL l2).length := by
  have h1 := nodup_dedupL l1
  have h2 := nodup_dedupL l2
  have hfin : (dedupL l1).toFinset = (dedupL l2).toFinset := by
    apply Finset.ext
    intro x
    rw [List.mem_toFinset, List.mem_toFinset, mem_dedupL, mem_dedupL]
    exact h x
  calc (dedupL l1).length = (dedupL l1).toFinset.card :=
        (List.toFinset_card_of_nodup h1).symm
    _ = (dedupL l2).toFinset.card := by rw [hfin]
    _ = (dedupL l2).length := List.toFinset_card_of_nodup h2

/-! ## The claims -/

/-- Claim C1: with package A requiring foo at one specifier and package B
requiring foo at another, the aggregated result has an entry for foo whose
version_specifiers collection is exactly the two specifiers (so foo is
reportable as CONFLICT, its length exceeding one), with foo's per-package
lists being A's single specifier and B's single specifier. -/
theorem claim_C1 :
    ∃ R rest, build_requirements_list
        [[("A", [("foo", ">=1.0")])], [("B", [("foo", ">=2.0")])]] false =
        .ok (R, rest) ∧
      vsList R "foo" = [">=1.0", ">=2.0"] ∧
      1 < (vsList R "foo").length ∧
      pkgList R "foo" "A" = some [">=1.0"] ∧
      pkgList R "foo" "B" = some [">=2.0"] :=
  ⟨[("foo", [("A", [">=1.0"]), ("version_specifiers", [">=1.0", ">=2.0"]),
      ("B", [">=2.0"])])], [[], []], rfl, rfl, by decide, rfl, rfl⟩

/-- Claim C2 counterexample: the claim that a ConflictError is raised only
on a second *distinct* specifier for the same (package, dependency) pair,
and that duplicates of an identical literal specifier are not re-appended
to that pair's list, fails on the code: one package naming the same
dependency twice with the *identical* specifier both raises under
raise_on_confict and, without it, yields the duplicated per-pair list. -/
theorem claim_C2_counterexample :
    build_requirements_list [[("A", [("foo", ">=1.0"), ("foo", ">=1.0")])]] true =
      .error .conflict ∧
    (∃ R rest, build_requirements_list
        [[("A", [("foo", ">=1.0"), ("foo", ">=1.0")])]] false = .ok (R, rest) ∧
      pkgList R "foo" "A" = some [">=1.0", ">=1.0"]) :=
  ⟨rfl, ⟨[("foo", [("A", [">=1.0", ">=1.0"]), ("version_specifiers", [">=1.0"])])],
    [[]], rfl, rfl⟩⟩

/-- Claim C2 (amended): for packages not named "version_specifiers" and
with non-empty package dicts, a ConflictError is raised only when the
same (package, dependency) pair receives a second specifier — distinct or
identical — and never across package names: when every (package,
dependency) pair occurs at most once, aggregation with raise_on_confict
set succeeds.  With raise_on_confict unset, every occurrence of a
specifier is appended to its pair's list (duplicates retained); only the
global version_specifiers list deduplicates. -/
theorem claim_C2 :
    (∀ pl : List PackageDict,
      (∀ pkg ∈ pl, pkg ≠ []) →
      (∀ pkg ∈ pl, ∀ kv ∈ pkg, kv.1 ≠ "version_specifiers") →
      (pairsOf (flatTriples pl)).Nodup →
      ∃ R, build_requirements_list pl true = .ok (R, pl.map List.dropLast)) ∧
    (∀ pl : List PackageDict,
      (∀ pkg ∈ pl, pkg ≠ []) →
      (∀ pkg ∈ pl, ∀ kv ∈ pkg, kv.1 ≠ "version_specifiers") →
      ∃ R, build_requirements_list pl false = .ok (R, pl.map List.dropLast) ∧
        ∀ d E, lookupA R d = some E → ∀ p, p ≠ "version_specifiers" →
          lookupA E p = if pairVers (flatTriples pl) p d = [] then none
            else some (pairVers (flatTriples pl) p d)) := by
  constructor
  · intro pl h1 h2 hnd
    obtain ⟨R, hok, _⟩ := build_true_nodup pl h1 h2 hnd
    exact ⟨R, hok⟩
  · intro pl h1 h2
    obtain ⟨R, hok, hinv⟩ := build_false_master pl h1 h2
    refine ⟨R, hok, ?_⟩
    intro d E hE p hp
    exact (((hinv d).2 E hE).2).2 p hp

/-- Claim C2 witness: the amended claim applied to concrete inputs. -/
theorem claim_C2_witness :
    (∃ R, build_requirements_list [[("A", [("foo", "1")])], [("B", [("foo", "2")])]] true =
      .ok (R, [[("A", [("foo", "1")])], [("B", [("foo", "2")])]].map List.dropLast)) ∧
    (∃ R, build_requirements_list [[("A", [("foo", "1"), ("foo", "1")])]] false =
      .ok (R, [[("A", [("foo", "1"), ("foo", "1")])]].map List.dropLast) ∧
      ∀ d E, lookupA R d = some E → ∀ p, p ≠ "version_specifiers" →
        lookupA E p = if pairVers (flatTriples [[("A", [("foo", "1"), ("foo", "1")])]]) p d = []
          then none
          else some (pairVers (flatTriples [[("A", [("foo", "1"), ("foo", "1")])]]) p d)) :=
  ⟨claim_C2.1 [[("A", [("foo", "1")])], [("B", [("foo", "2")])]]
      (by decide) (by decide) (by decide),
    claim_C2.2 [[("A", [("foo", "1"), ("foo", "1")])]] (by decide) (by decide)⟩

/-- Claim C3 counterexample: the claim that two selected requirement
strings denoting the same (canonicalized name, specifier) pair collapse
into a single entry fails on the code: the union is taken over literal
strings before canonicalization, so the two spellings Foo and foo of the
same canonical pair survive as two entries in the result. -/
theorem claim_C3_counterexample :
    ∃ reqs, build_package_requirements
        { name := "p",
          run_requires := [{ reqs := some ["Foo >=1.0"] }],
          test_requires := [{ reqs := some ["foo >=1.0"] }] } {} = .ok ("p", reqs) ∧
      reqs.count ("foo", ">=1.0") = 2 :=
  ⟨[("foo", ">=1.0"), ("foo", ">=1.0")], by rfl, rfl⟩

/-- Claim C3 (amended): extract unions the enabled groups by *literal*
requirement string: the selected string list is duplicate-free, and each
(canonicalized name, specifier) pair occurs in the result once per
*distinct literal spelling* that parses to it.  Hence duplicate literal
strings collapse, two distinct spellings of the same canonical pair both
survive as distinct entries, and differing specifiers for the same name
survive as distinct entries. -/
theorem claim_C3 :
    ∀ (md : PackageMetadata) (opts : ExtractOpts) (res : String × List (String × String)),
    build_package_requirements md opts = .ok res →
    ∃ L, requirementStrings md opts = .ok L ∧ L.Nodup ∧
      ∀ x : String × String, res.2.count x = L.countP
        (fun s => match parseRequirement s with | .ok r => r == x | .error _ => false) := by
  intro md opts res h
  obtain ⟨L, hL, hrs⟩ := build_ok_strings md opts res h
  exact ⟨L, hL, requirementStrings_nodup md opts L hL,
    fun x => parseRequirements_count L res.2 hrs x⟩

/-- Claim C3 witness: the amended claim applied to a concrete document. -/
theorem claim_C3_witness :
    ∃ L, requirementStrings
        { name := "p",
          run_requires := [{ reqs := some ["Foo >=1.0"] }],
          test_requires := [{ reqs := some ["foo >=1.0"] }] } {} = .ok L ∧ L.Nodup ∧
      ∀ x : String × String,
        (("p", [("foo", ">=1.0"), ("foo", ">=1.0")]) :
          String × List (String × String)).2.count x = L.countP
          (fun s => match parseRequirement s with | .ok r => r == x | .error _ => false) :=
  claim_C3
    { name := "p",
      run_requires := [{ reqs := some ["Foo >=1.0"] }],
      test_requires := [{ reqs := some ["foo >=1.0"] }] } {}
    ("p", [("foo", ">=1.0"), ("foo", ">=1.0")]) (by rfl)

/-- Claim C4: for an enabled requirement group with more than one
sub-group of which exactly one is tagged with the extra "all", the
selection helper returns exactly that sub-group's requires list and
ignores every other sub-group. -/
theorem claim_C4 :
    ∀ (groups : List ReqGroup) (g : ReqGroup),
    1 < groups.length → g ∈ groups → g.extra = some "all" →
    (∀ x ∈ groups, x.extra = some "all" → x = g) →
    get_requirements groups = g.reqs :=
  fun groups g h1 h2 h3 h4 => get_requirements_all_wins groups g h1 h2 h3 h4

/-- Claim C4 witness: the all-tagged sub-group wins on a concrete input. -/
theorem claim_C4_witness :
    get_requirements [⟨some "x", some ["a 1"]⟩, ⟨some "all", some ["b 2"]⟩] =
      (⟨some "all", some ["b 2"]⟩ : ReqGroup).reqs :=
  claim_C4 [⟨some "x", some ["a 1"]⟩, ⟨some "all", some ["b 2"]⟩]
    ⟨some "all", some ["b 2"]⟩ (by decide) (by decide) (by decide) (by decide)

/-- Claim C5: with two or more sub-groups none of which is tagged "all"
(and likewise with a single sub-group lacking the requires key) the
selection helper returns None, and extract then aborts with the TypeError
of a set.union applied to None — a failure outside the specified error
taxonomy, so extract is not total over well-formed metadata. -/
theorem claim_C5 :
    (∀ groups : List ReqGroup, 1 < groups.length →
      (∀ g ∈ groups, g.extra ≠ some "all") → get_requirements groups = none) ∧
    (∀ g : ReqGroup, g.reqs = none → get_requirements [g] = none) ∧
    (∀ (md : PackageMetadata) (opts : ExtractOpts), opts.run_requires = true →
      get_requirements md.run_requires = none →
      build_package_requirements md opts = .error .typeError) := by
  refine ⟨get_requirements_no_all, ?_, build_typeError_of_run⟩
  intro g hg
  rw [get_requirements_single g, hg]

/-- Claim C5 witness: the helper and extract fail on concrete inputs. -/
theorem claim_C5_witness :
    get_requirements [⟨some "x", some ["a 1"]⟩, ⟨some "y", some ["b 2"]⟩] = none ∧
    get_requirements [⟨some "x", none⟩] = none ∧
    build_package_requirements
      { name := "p",
        run_requires := [⟨some "x", some ["a 1"]⟩, ⟨some "y", some ["b 2"]⟩] } {} =
      .error .typeError :=
  ⟨claim_C5.1 [⟨some "x", some ["a 1"]⟩, ⟨some "y", some ["b 2"]⟩] (by decide) (by decide),
   claim_C5.2.1 ⟨some "x", none⟩ rfl,
   claim_C5.2.2
     { name := "p",
       run_requires := [⟨some "x", some ["a 1"]⟩, ⟨some "y", some ["b 2"]⟩] } {} rfl
     (claim_C5.1 [⟨some "x", some ["a 1"]⟩, ⟨some "y", some ["b 2"]⟩]
       (by decide) (by decide))⟩

/-- Claim C6 counterexample: the claim is refuted in its conflict-flag
part.  Swapping the two packages below — one of which is literally named
"version_specifiers" — preserves the *set* of specifiers of foo but not
the length of its version_specifiers list: one order yields the
duplicated list and the CONFLICT flag, the other the singleton list and
no flag, so the flag is not permutation-invariant. -/
theorem claim_C6_counterexample :
    List.Perm [[("B", [("foo", "v1")])], [("version_specifiers", [("foo", "v1")])]]
      [[("version_specifiers", [("foo", "v1")])], [("B", [("foo", "v1")])]] ∧
    (∃ R1 m1, build_requirements_list
        [[("B", [("foo", "v1")])], [("version_specifiers", [("foo", "v1")])]] false =
        .ok (R1, m1) ∧
      vsList R1 "foo" = ["v1", "v1"] ∧ 1 < (vsList R1 "foo").length) ∧
    (∃ R2 m2, build_requirements_list
        [[("version_specifiers", [("foo", "v1")])], [("B", [("foo", "v1")])]] false =
        .ok (R2, m2) ∧
      vsList R2 "foo" = ["v1"] ∧ ¬ 1 < (vsList R2 "foo").length) :=
  ⟨List.Perm.swap _ _ _,
   ⟨[("foo", [("B", ["v1"]), ("version_specifiers", ["v1", "v1"])])], [[], []],
     rfl, rfl, by decide⟩,
   ⟨[("foo", [("version_specifiers", ["v1"]), ("B", ["v1"])])], [[], []],
     rfl, rfl, by decide⟩⟩

/-- Claim C6 (amended): aggregation with raise_on_confict unset is
order-independent in the *set* of elements of each dependency's
version_specifiers list, for every permutation of the input package list;
the conflict flag (length exceeding one) is additionally
permutation-invariant under the precondition that no package is named
"version_specifiers" (without that precondition only the set, not the
flag, is preserved). -/
theorem claim_C6 :
    ∀ (l1 l2 : List PackageDict), l1.Perm l2 →
    (∀ pkg ∈ l1, pkg ≠ []) →
    ∃ R1 R2, build_requirements_list l1 false = .ok (R1, l1.map List.dropLast) ∧
      build_requirements_list l2 false = .ok (R2, l2.map List.dropLast) ∧
      (∀ d v, v ∈ vsList R1 d ↔ v ∈ vsList R2 d) ∧
      ((∀ pkg ∈ l1, ∀ kv ∈ pkg, kv.1 ≠ "version_specifiers") →
        ∀ d, (vsList R1 d).length = (vsList R2 d).length) := by
  intro l1 l2 hperm h1
  have h1b : ∀ pkg ∈ l2, pkg ≠ [] := fun p hp => h1 p (hperm.mem_iff.mpr hp)
  obtain ⟨R1, hok1, hmem1⟩ := build_false_mem l1 h1
  obtain ⟨R2, hok2, hmem2⟩ := build_false_mem l2 h1b
  have hAV : ∀ d v, v ∈ allVers (flatTriples l1) d ↔ v ∈ allVers (flatTriples l2) d := by
    intro d v
    rw [mem_allVers, mem_allVers]
    constructor
    · rintro ⟨p, hp⟩
      rcases (mem_flatTriples l1 (p, d, v)).mp hp with ⟨pkg, hpkg, dl, r, hpop, ht⟩
      exact ⟨p, (mem_flatTriples l2 (p, d, v)).mpr
        ⟨pkg, hperm.mem_iff.mp hpkg, dl, r, hpop, ht⟩⟩
    · rintro ⟨p, hp⟩
      rcases (mem_flatTriples l2 (p, d, v)).mp hp with ⟨pkg, hpkg, dl, r, hpop, ht⟩
      exact ⟨p, (mem_flatTriples l1 (p, d, v)).mpr
        ⟨pkg, hperm.mem_iff.mpr hpkg, dl, r, hpop, ht⟩⟩
  refine ⟨R1, R2, hok1, hok2, ?_, ?_⟩
  · intro d v
    rw [vsList_mem_of_MemInv _ _ _ hmem1 v, vsList_mem_of_MemInv _ _ _ hmem2 v]
    exact hAV d v
  · intro hgood d
    have hgood2 : ∀ pkg ∈ l2, ∀ kv ∈ pkg, kv.1 ≠ "version_specifiers" :=
      fun p hp => hgood p (hperm.mem_iff.mpr hp)
    obtain ⟨R1b, hok1b, hinv1⟩ := build_false_master l1 h1 hgood
    obtain ⟨R2b, hok2b, hinv2⟩ := build_false_master l2 h1b hgood2
    rw [hok1] at hok1b
    rw [hok2] at hok2b
    simp only [Except.ok.injEq, Prod.mk.injEq] at hok1b hok2b
    rw [← hok1b.1] at hinv1
    rw [← hok2b.1] at hinv2
    rw [vsList_of_ReqsInv _ R1 d hinv1, vsList_of_ReqsInv _ R2 d hinv2]
    exact dedupL_length_eq _ _ (hAV d)

/-- Claim C6 witness: the amended claim applied to a concrete swap. -/
theorem claim_C6_witness :
    ∃ R1 R2, build_requirements_list
        [[("A", [("foo", "1")])], [("B", [("foo", "2")])]] false =
        .ok (R1, [[("A", [("foo", "1")])], [("B", [("foo", "2")])]].map List.dropLast) ∧
      build_requirements_list
        [[("B", [("foo", "2")])], [("A", [("foo", "1")])]] false =
        .ok (R2, [[("B", [("foo", "2")])], [("A", [("foo", "1")])]].map List.dropLast) ∧
      (∀ d v, v ∈ vsList R1 d ↔ v ∈ vsList R2 d) ∧
      ((∀ pkg ∈ [[("A", [("foo", "1")])], [("B", [("foo", "2")])]],
          ∀ kv ∈ pkg, kv.1 ≠ "version_specifiers") →
        ∀ d, (vsList R1 d).length = (vsList R2 d).length) :=
  claim_C6 [[("A", [("foo", "1")])], [("B", [("foo", "2")])]]
    [[("B", [("foo", "2")])], [("A", [("foo", "1")])]]
    (List.Perm.swap _ _ _) (by decide)

/-- Claim C7: extract succeeds only when every selected requirement
string splits on whitespace into exactly two tokens, and whenever some
selected string splits into any other number of tokens extract fails
with the malformedRequirement failure. -/
theorem claim_C7 :
    (∀ (md : PackageMetadata) (opts : ExtractOpts)
      (res : String × List (String × String)),
      build_package_requirements md opts = .ok res →
      ∃ L, requirementStrings md opts = .ok L ∧ ∀ s ∈ L, (pySplit s).length = 2) ∧
    (∀ (md : PackageMetadata) (opts : ExtractOpts) (L : List String) (s : String),
      requirementStrings md opts = .ok L → s ∈ L → (pySplit s).length ≠ 2 →
      build_package_requirements md opts = .error .malformedRequirement) := by
  constructor
  · intro md opts res h
    obtain ⟨L, hL, hrs⟩ := build_ok_strings md opts res h
    exact ⟨L, hL, parseRequirements_ok_tokens L res.2 hrs⟩
  · exact build_malformed

/-- Claim C7 witness: the single-token scenario from the specification. -/
theorem claim_C7_witness :
    build_package_requirements
      { name := "p", run_requires := [⟨none, some ["malformed-no-specifier"]⟩] } {} =
      .error .malformedRequirement :=
  claim_C7.2 { name := "p", run_requires := [⟨none, some ["malformed-no-specifier"]⟩] }
    {} ["malformed-no-specifier"] "malformed-no-specifier" rfl (by decide) (by decide)

/-- Claim C8: the dependency-name canonicalization is idempotent, and two
spellings of a name that differ only in letter case or in separator
style (dash, underscore, dot, position by position) canonicalize to the
same key. -/
theorem claim_C8 :
    (∀ s : String, canonicalize_name (canonicalize_name s) = canonicalize_name s) ∧
    (∀ s t : String, nameVariant s t = true →
      canonicalize_name s = canonicalize_name t) :=
  ⟨canonicalize_name_idem, canonicalize_name_variant⟩

/-- Claim C8 witness: idempotence and variant collapse on concrete names. -/
theorem claim_C8_witness :
    canonicalize_name (canonicalize_name "Foo_Bar") = canonicalize_name "Foo_Bar" ∧
    canonicalize_name "Foo_Bar" = canonicalize_name "fOO.bar" :=
  ⟨claim_C8.1 "Foo_Bar", claim_C8.2 "Foo_Bar" "fOO.bar" (by decide)⟩

/-- Claim C9 counterexample: the claim that aggregate leaves every input
PackageRequirements mapping unchanged fails on the code: dict.popitem
empties each single-key package dict, so after aggregation the input
dict is empty rather than equal to its original value. -/
theorem claim_C9_counterexample :
    ∃ R, build_requirements_list [[("A", [("foo", ">=1.0")])]] false = .ok (R, [[]]) ∧
      ([[]] : List PackageDict) ≠ [[("A", [("foo", ">=1.0")])]] :=
  ⟨[("foo", [("A", [">=1.0"]), ("version_specifiers", [">=1.0"])])], rfl, by decide⟩

/-- Claim C9 (amended): extract is a pure function of its input, and
aggregate computes a deterministic function of its input but mutates it:
whenever aggregation succeeds, the final state of the input list is
exactly the original list with the last item removed from each package
dict (for the extractor's single-key dicts, every input mapping is
emptied). -/
theorem claim_C9 :
    ∀ (pl : List PackageDict) (raiseC : Bool) (R : Reqs) (l2 : List PackageDict),
    build_requirements_list pl raiseC = .ok (R, l2) → l2 = pl.map List.dropLast :=
  fun pl raiseC R l2 h => build_popState pl raiseC R l2 h

/-- Claim C9 witness: the mutated state at a concrete input. -/
theorem claim_C9_witness :
    ([[]] : List PackageDict) = [[("A", [("foo", "1")])]].map List.dropLast :=
  claim_C9 [[("A", [("foo", "1")])]] false
    [("foo", [("A", ["1"]), ("version_specifiers", ["1"])])] [[]] rfl

/-- Claim C10: under the precondition that no input package is named
"version_specifiers", every dependency entry of the aggregated result
has as keys exactly the names of the packages that mentioned that
dependency plus the reserved key "version_specifiers"; and a package
literally named "version_specifiers" breaks the invariant by conflating
its per-package specifier list with the global distinct-specifier set:
naming the same dependency twice with one identical specifier leaves a
duplicate in the version_specifiers list and wrongly sets the conflict
flag. -/
theorem claim_C10 :
    (∀ pl : List PackageDict,
      (∀ pkg ∈ pl, pkg ≠ []) →
      (∀ pkg ∈ pl, ∀ kv ∈ pkg, kv.1 ≠ "version_specifiers") →
      ∃ R, build_requirements_list pl false = .ok (R, pl.map List.dropLast) ∧
        ∀ d E, lookupA R d = some E → ∀ k,
          (lookupA E k).isSome ↔
            (k = "version_specifiers" ∨ ∃ v, (k, d, v) ∈ flatTriples pl)) ∧
    (∃ R, build_requirements_list
        [[("version_specifiers", [("foo", "v1"), ("foo", "v1")])]] false =
        .ok (R, [[]]) ∧
      lookupA R "foo" = some [("version_specifiers", ["v1", "v1"])] ∧
      vsList R "foo" = ["v1", "v1"] ∧ 1 < (vsList R "foo").length) := by
  constructor
  · intro pl h1 h2
    obtain ⟨R, hok, hinv⟩ := build_false_master pl h1 h2
    exact ⟨R, hok, fun d E hE k => entryKeys_of_ReqsInv (flatTriples pl) R d E hinv hE k⟩
  · exact ⟨[("foo", [("version_specifiers", ["v1", "v1"])])], rfl, rfl, rfl, by decide⟩

/-- Claim C10 witness: the keys characterization at a concrete input. -/
theorem claim_C10_witness :
    ∃ R, build_requirements_list [[("A", [("foo", "1")])]] false =
      .ok (R, [[("A", [("foo", "1")])]].map List.dropLast) ∧
      ∀ d E, lookupA R d = some E → ∀ k,
        (lookupA E k).isSome ↔
          (k = "version_specifiers" ∨
            ∃ v, (k, d, v) ∈ flatTriples [[("A", [("foo", "1")])]]) :=
  claim_C10.1 [[("A", [("foo", "1")])]] (by decide) (by decide)

end InvenioQaTools
